import Mathlib

/-!
Verification of the pocl `Workgroup` LLVM module pass (`Workgroup.cc`):
the pass that turns a single-work-item OpenCL kernel into a workgroup
function plus the type-erased ABI glue (`createLauncher`,
`createWorkgroup`, `noaliasArguments`, the `_pocl_context` layout, the
header-fragment output and the kernel-name filter), together with a model
of the work-item replication stage.

Shallow embedding conventions: LLVM IR values are numbered registers
(`Nat`), the IRBuilder output of each synthesis routine is a list of
instructions mirroring the exact `Create*` calls of the source, and a
small-step evaluator gives those instruction lists a semantics.  Machine
integers only ever hold small nonnegative quantities here, so they are
modelled as `Nat`.
-/

namespace PoclWG

/-- Pointwise function update, used for register files, memories and
global-variable maps. -/
def upd {κ : Type} [DecidableEq κ] {α : Type} (f : κ → α) (k : κ) (x : α) : κ → α :=
  fun n => if n = k then x else f n

/-! ## The dispatch context record (`TypeBuilder<PoclContext, xcompile>`)

`Workgroup.cc` lines 65-98: the struct type is built as
`StructType::get(i32, i32[3], i32[3], i32[3])` and the `Fields` enum names
the member indices `WORK_DIM, NUM_GROUPS, GROUP_ID, GLOBAL_OFFSET` in
declaration order. -/

/-- LLVM types, as far as this pass mentions them.  `StructType::get` is
called with exactly four member types in the source, so the struct
constructor has arity four. -/
inductive LTy where
  | i (w : Nat)
  | arrT (n : Nat) (t : LTy)
  | ptrT (t : LTy)
  | structT (a b c d : LTy)
  deriving DecidableEq

/-- The `PoclContext` struct type exactly as `TypeBuilder::get` assembles
it: `StructType::get(i32, i32[3], i32[3], i32[3])`. -/
def poclContextType : LTy :=
  LTy.structT (LTy.i 32) (LTy.arrT 3 (LTy.i 32)) (LTy.arrT 3 (LTy.i 32))
    (LTy.arrT 3 (LTy.i 32))

/-- Member list of the context struct, in declaration order. -/
def poclContextFields : List LTy :=
  [LTy.i 32, LTy.arrT 3 (LTy.i 32), LTy.arrT 3 (LTy.i 32), LTy.arrT 3 (LTy.i 32)]

/-- `TypeBuilder::get` takes only the LLVM context: the struct type does not
depend on which kernel is being compiled.  This is the per-kernel view used
by `createLauncher`/`createWorkgroup`. -/
def poclContextTypeFor (_kernel : String) : LTy := poclContextType

/-- The `TypeBuilder<PoclContext>::Fields` enum. -/
inductive CtxField where
  | WORK_DIM
  | NUM_GROUPS
  | GROUP_ID
  | GLOBAL_OFFSET
  deriving DecidableEq

/-- Numeric value of each `Fields` enumerator (C enum, declaration order). -/
def fieldIndex : CtxField → Nat
  | .WORK_DIM => 0
  | .NUM_GROUPS => 1
  | .GROUP_ID => 2
  | .GLOBAL_OFFSET => 3

/-- Byte size of an LLVM type (i32 is 4 bytes; arrays and structs have no
padding here since every member is 4-byte aligned). -/
def bytesOf : LTy → Nat
  | .i w => w / 8
  | .arrT n t => n * bytesOf t
  | .ptrT _ => 8
  | .structT a b c d => bytesOf a + bytesOf b + bytesOf c + bytesOf d

/-- Byte offset of member `k` of a struct with field list `fs`. -/
def structFieldOffset (fs : List LTy) (k : Nat) : Nat :=
  ((fs.take k).map bytesOf).sum

/-- Byte offset of a `_pocl_context` member, via its `Fields` index. -/
def ctxFieldOffset (f : CtxField) : Nat :=
  structFieldOffset poclContextFields (fieldIndex f)

/-! ## Symbol names (`createLauncher` line 190, `createWorkgroup` line 234)

`createLauncher` creates the launcher as `"_" + F->getNameStr()` and
`createWorkgroup` is called on the *launcher* `L`, appending
`"_workgroup"` to `L`'s name. -/

/-- Name of the launcher synthesized for kernel `k`
(`Function::Create(..., "_" + F->getNameStr(), &M)`). -/
def launcherName (k : String) : String := "_" ++ k

/-- Name of the workgroup function synthesized for the function `f` it
wraps (`M.getOrInsertFunction(F->getNameStr() + "_workgroup", ft)`). -/
def workgroupName (f : String) : String := f ++ "_workgroup"

/-- The workgroup symbol actually produced for kernel `k`: `runOnModule`
passes the launcher `L` (not the kernel) to `createWorkgroup`. -/
def workgroupSymbolFor (k : String) : String := workgroupName (launcherName k)

/-! ## Runtime values

Bit patterns flowing through the synthesized glue code.  A `bitcast`
reinterprets but does not change a value, so values are type-free. -/

/-- A runtime value: an integer bit pattern, a memory address, a loaded
`i32[3]` context field, a pointer to a context field, or the opaque
context pointer itself. -/
inductive Val where
  | word (n : Nat)
  | addr (a : Nat)
  | trip (a b c : Nat)
  | fieldPtr (f : Nat)
  | ctxPtr
  deriving DecidableEq

/-- Look up a list of register numbers in a register file, failing if any
register is unset. -/
def regValues (rs : List Nat) (regs : Nat → Option Val) : Option (List Val) :=
  match rs with
  | [] => some []
  | r :: rest =>
    match regs r, regValues rest regs with
    | some v, some vs => some (v :: vs)
    | _, _ => none

/-! ## Workgroup ABI synthesis (`createWorkgroup`, lines 224-259)

The workgroup function has two parameters (register 0: the `i8*[]`
argument array, register 1: the context pointer).  The source loops over
*all* arguments of `F` — and `F` here is the launcher `L`, whose argument
list is the kernel's parameters followed by the context pointer — emitting
for each one `CreateGEP(ai, i)`, `CreateLoad`, `CreateBitCast(t*)`,
`CreateLoad`; it then overwrites the last collected argument with the
workgroup's own second parameter (`arguments.back() = ++ai`) and calls
`F`. -/

/-- Instructions of the synthesized workgroup body. -/
inductive WInstr where
  | gep (dst base idx : Nat)
  | loadI (dst src : Nat)
  | bitcastI (dst src : Nat) (t : LTy)
  | callI (callee : String) (args : List Nat)
  | retVoid
  deriving DecidableEq

/-- The per-argument loop of `createWorkgroup`: for launcher parameter
types `ts`, starting at argument index `i` with first fresh register
`next`, emit the gep/load/bitcast/load quadruple for each parameter and
collect the registers holding the loaded argument values. -/
def wgLoop (ts : List LTy) (i next : Nat) : List WInstr × List Nat :=
  match ts with
  | [] => ([], [])
  | t :: rest =>
    let (is, vs) := wgLoop rest (i + 1) (next + 4)
    (WInstr.gep next 0 i :: WInstr.loadI (next + 1) next ::
       WInstr.bitcastI (next + 2) (next + 1) (LTy.ptrT t) ::
       WInstr.loadI (next + 3) (next + 2) :: is,
     (next + 3) :: vs)

/-- `arguments.back() = ++ai`: replace the last element of the collected
argument list by the given register. -/
def setLast (l : List Nat) (v : Nat) : List Nat :=
  match l with
  | [] => []
  | [_] => [v]
  | x :: xs => x :: setLast xs v

/-- The body `createWorkgroup` emits when wrapping a function with
parameter types `launcherParams` named `callee`.  Registers 0 and 1 are
the workgroup function's own `args` and `ctx` parameters; fresh value
numbering starts at 2. -/
def createWorkgroupBody (launcherParams : List LTy) (callee : String) : List WInstr :=
  let (is, vs) := wgLoop launcherParams 0 2
  is ++ [WInstr.callI callee (setLast vs 1), WInstr.retVoid]

/-- Initial register file of the workgroup function: register 0 holds the
address of the argument array, register 1 the context argument. -/
def wgInitRegs (base : Nat) (ctxv : Val) : Nat → Option Val :=
  fun n => if n = 0 then some (Val.addr base) else if n = 1 then some ctxv else none

/-- Straight-line evaluation of a workgroup body.  The observable outcome
is the single call the body makes (callee name and argument values);
`none` models a fault (read of an unset register or of an address the
memory does not define). -/
def evalWG (body : List WInstr) (regs : Nat → Option Val) (mem : Nat → Option Val) :
    Option (String × List Val) :=
  match body with
  | [] => none
  | WInstr.gep d b i :: rest =>
    match regs b with
    | some (Val.addr a) => evalWG rest (upd regs d (some (Val.addr (a + i)))) mem
    | _ => none
  | WInstr.loadI d s :: rest =>
    match regs s with
    | some (Val.addr a) =>
      match mem a with
      | some v => evalWG rest (upd regs d (some v)) mem
      | none => none
    | _ => none
  | WInstr.bitcastI d s _ :: rest =>
    match regs s with
    | some v => evalWG rest (upd regs d (some v)) mem
    | none => none
  | WInstr.callI f as :: _ =>
    match regValues as regs with
    | some vs => some (f, vs)
    | none => none
  | WInstr.retVoid :: _ => none

/-- The `GEP` indices into the argument array that a workgroup body
contains (all geps are based on register 0, the `args` parameter). -/
def argGepIndices (body : List WInstr) : List Nat :=
  body.filterMap fun ins =>
    match ins with
    | WInstr.gep _ 0 i => some i
    | _ => none

/-! ## Launcher synthesis (`createLauncher`, lines 175-222)

The launcher's parameters are the kernel's parameters followed by a
`PoclContext*`.  Its body conditionally copies the `GROUP_ID` and
`NUM_GROUPS` context fields into the module globals `_group_id` and
`_num_groups` (each guarded by `M.getGlobalVariable(...) != NULL`), then
calls the kernel with its original parameters and returns void. -/

/-- Instructions of the synthesized launcher body.  `structGEP` is
`CreateStructGEP` on the context parameter. -/
inductive LInstr where
  | structGEP (dst base : Nat) (field : Nat)
  | loadF (dst src : Nat)
  | storeG (g : String) (src : Nat)
  | callK (args : List Nat)
  | retV
  deriving DecidableEq

/-- The body `createLauncher` emits for a kernel with `n` parameters.
Registers `0..n-1` are the kernel parameters, register `n` is the context
pointer; fresh value numbering starts at `n+1`.  `hasGroupID` and
`hasNumGroups` record whether the module defines the `_group_id` and
`_num_groups` globals.  Field numbers come from the `Fields` enum
(`GROUP_ID` for the first copy, `NUM_GROUPS` for the second). -/
def createLauncherBody (n : Nat) (hasGroupID hasNumGroups : Bool) : List LInstr :=
  let giPart : List LInstr × Nat :=
    if hasGroupID then
      ([LInstr.structGEP (n + 1) n (fieldIndex CtxField.GROUP_ID),
        LInstr.loadF (n + 2) (n + 1),
        LInstr.storeG "_group_id" (n + 2)], n + 3)
    else ([], n + 1)
  let ngPart : List LInstr :=
    if hasNumGroups then
      [LInstr.structGEP giPart.2 n (fieldIndex CtxField.NUM_GROUPS),
       LInstr.loadF (giPart.2 + 1) giPart.2,
       LInstr.storeG "_num_groups" (giPart.2 + 1)]
    else []
  giPart.1 ++ ngPart ++ [LInstr.callK (List.range n), LInstr.retV]

/-- A dispatch context record value (the pointee of the launcher's last
parameter). -/
structure PoclContextVal where
  workDim : Nat
  numGroups : Nat × Nat × Nat
  groupId : Nat × Nat × Nat
  globalOffset : Nat × Nat × Nat
  deriving DecidableEq

/-- Loading a context field through its `Fields` index. -/
def ctxFieldVal (c : PoclContextVal) (f : Nat) : Option Val :=
  match f with
  | 0 => some (Val.word c.workDim)
  | 1 => some (Val.trip c.numGroups.1 c.numGroups.2.1 c.numGroups.2.2)
  | 2 => some (Val.trip c.groupId.1 c.groupId.2.1 c.groupId.2.2)
  | 3 => some (Val.trip c.globalOffset.1 c.globalOffset.2.1 c.globalOffset.2.2)
  | _ => none

/-- Observable events of a launcher execution: a store to a module global,
or the call into the kernel body (with the registers passed, which are the
launcher's first `n` parameters). -/
inductive LEvent where
  | stored (g : String) (v : Val)
  | calledKernel (args : List Nat)
  deriving DecidableEq

/-- Straight-line evaluation of a launcher body against a context record
`c`, a register file, and a global-variable store; accumulates the event
trace.  `none` models a fault. -/
def evalLauncher (c : PoclContextVal) (body : List LInstr) (regs : Nat → Option Val)
    (g : String → Option Val) (tr : List LEvent) :
    Option ((String → Option Val) × List LEvent) :=
  match body with
  | [] => none
  | LInstr.structGEP d b f :: rest =>
    match regs b with
    | some Val.ctxPtr => evalLauncher c rest (upd regs d (some (Val.fieldPtr f))) g tr
    | _ => none
  | LInstr.loadF d s :: rest =>
    match regs s with
    | some (Val.fieldPtr f) =>
      match ctxFieldVal c f with
      | some v => evalLauncher c rest (upd regs d (some v)) g tr
      | none => none
    | _ => none
  | LInstr.storeG gl s :: rest =>
    match regs s with
    | some v => evalLauncher c rest regs (upd g gl (some v)) (tr ++ [LEvent.stored gl v])
    | none => none
  | LInstr.callK as :: rest =>
    evalLauncher c rest regs g (tr ++ [LEvent.calledKernel as])
  | LInstr.retV :: _ => some (g, tr)

/-- Initial register file of the launcher: the kernel's `n` parameters in
registers `0..n-1` (opaque values supplied by `kargs`), the context
pointer in register `n`. -/
def launcherInitRegs (n : Nat) (kargs : Nat → Val) : Nat → Option Val :=
  fun m => if m = n then some Val.ctxPtr else if m < n then some (kargs m) else none

/-- The `i32[3]` value of a context triple as loaded by the launcher. -/
def tripOf (t : Nat × Nat × Nat) : Val := Val.trip t.1 t.2.1 t.2.2

/-! ## Launcher attributes (`noaliasArguments`, lines 167-173, and
`runOnModule` lines 156-159)

`runOnModule` creates the launcher, marks it `NoInline`, and calls
`noaliasArguments`, which sets `DoesNotAlias` at attribute index `i+1`
for every parameter index `i` (index 0 is the return value). -/

/-- The slice of an LLVM `Function` this pass manipulates. -/
structure MFunc where
  fname : String
  params : List LTy
  noinline : Bool
  noaliasIdx : List Nat
  deriving DecidableEq

/-- `noaliasArguments`: set `DoesNotAlias` at indices `1..numParams`. -/
def noaliasArguments (F : MFunc) : MFunc :=
  { F with noaliasIdx := (List.range F.params.length).map (· + 1) }

/-- The launcher as `createLauncher` creates it: the kernel's parameter
types followed by `PoclContext*`, external linkage, no attributes yet. -/
def mkLauncherFunc (k : String) (kernelParams : List LTy) : MFunc :=
  { fname := launcherName k
    params := kernelParams ++ [LTy.ptrT poclContextType]
    noinline := false
    noaliasIdx := [] }

/-- The launcher after `runOnModule`'s post-processing:
`L->addFnAttr(Attribute::NoInline); noaliasArguments(L);`. -/
def synthesizeLauncher (k : String) (kernelParams : List LTy) : MFunc :=
  noaliasArguments { mkLauncherFunc k kernelParams with noinline := true }

/-! ## Body normalization (`runOnModule`, lines 103-114)

Before the per-kernel loop, `runOnModule` walks the module: every
non-declaration gets `InternalLinkage`, every function is handed to a
`BasicInliner`, and `inlineFunctions()` runs once. -/

/-- Linkage as far as this pass distinguishes it. -/
inductive Linkage where
  | external
  | internal
  deriving DecidableEq

/-- A module function for the normalization phase: its name, whether it is
only a declaration, its linkage, and the calls appearing in its body. -/
structure MFn where
  mname : String
  isDecl : Bool
  linkage : Linkage
  calls : List String
  deriving DecidableEq

/-- The linkage loop of `runOnModule`: `if (!i->isDeclaration())
i->setLinkage(Function::InternalLinkage);` for every function. -/
def internalize (fns : List MFn) : List MFn :=
  fns.map fun f => if f.isDecl then f else { f with linkage := Linkage.internal }

/-- Body (call list) of the function of the unit named `c`, if `c` is
defined (not merely declared) in the unit. -/
def lookupDef (fns : List MFn) (c : String) : Option (List String) :=
  match fns.find? (fun f => f.mname == c && !f.isDecl) with
  | some f => some f.calls
  | none => none

/-- Modelled from the spec: one inlining round of the Body Normalizer
(`BasicInliner::inlineFunctions`, whose implementation is not part of this
repository's sources): each call to a function defined in the unit is
replaced by that callee's body — here, by the calls the callee makes. -/
def inlineStep (defs : String → Option (List String)) (calls : List String) : List String :=
  calls.flatMap fun c => (defs c).getD [c]

/-- Modelled from the spec: the Body Normalizer's fixpoint — rounds of
inlining until no call to a unit-defined function remains; `fuel` bounds
the rounds, and running out of fuel (unresolvable/recursive call graphs)
is the fatal per-kernel error, returned as `none`. -/
def inlineCalls (defs : String → Option (List String)) :
    Nat → List String → Option (List String)
  | 0, _ => none
  | fuel + 1, calls =>
    if calls.all (fun c => (defs c).isNone) then some calls
    else inlineCalls defs fuel (inlineStep defs calls)

/-! ## The per-kernel driver (`runOnModule`, lines 120-165)

For every operand of the `opencl.kernels` metadata: skip if a kernel-name
filter is set and does not match; write two `#define` lines to the header
stream; save the three `LocalSize` entries, override them from any
matching `opencl.kernel_wg_size_info` entry, run the replication passes,
restore `LocalSize`; synthesize launcher and workgroup function.  The pass
always returns `true`. -/

/-- A local-size triple (the three-element `cl::list<int> LocalSize`). -/
abbrev N3 := Nat × Nat × Nat

/-- The skip test of line 129:
`if ((Kernel != "") && (K->getName() != Kernel)) continue;`. -/
def skipKernel (filter k : String) : Bool :=
  (filter != "") && (k != filter)

/-- First header line for kernel `k` (line 132):
`#define _<k>_NUM_LOCALS 0`. -/
def numLocalsLine (k : String) : String :=
  "#define _" ++ k ++ "_NUM_LOCALS 0"

/-- Second header line for kernel `k` (line 133):
`#define _<k>_LOCAL_SIZE \x7b\x7d`. -/
def localSizeLine (k : String) : String :=
  "#define _" ++ k ++ "_LOCAL_SIZE \x7b\x7d"

/-- Both header lines of kernel `k`, in emission order. -/
def headerLinesFor (k : String) : List String :=
  [numLocalsLine k, localSizeLine k]

/-- The `SizeInfo` scan of lines 141-150: walk every
`opencl.kernel_wg_size_info` entry and overwrite all three `LocalSize`
entries whenever the entry's first operand is this kernel (a later
matching entry overwrites an earlier one). -/
def overrideSize (sizeInfo : List (String × N3)) (k : String) (ls : N3) : N3 :=
  sizeInfo.foldl (fun acc e => if e.1 == k then e.2 else acc) ls

/-- What compiling one kernel produces: the synthesized symbols and the
local size the replication stage was run with. -/
structure KernelArtifacts where
  kname : String
  launcher : String
  workgroup : String
  usedLocalSize : N3
  deriving DecidableEq

/-- Compilation of one kernel as `runOnModule` performs it, with the
possibility of the replication stage exiting exceptionally exposed:
`wrFails k = true` models `WR.runOnFunction(*K)` (whose implementation is
not part of this repository's sources) leaving by an exceptional path.
The save of `OldLocalSize` (lines 137-139), the metadata override and the
restore (lines 153-154) are straight-line code with no scope guard, so an
exceptional exit of the replication stage (`.error`) leaves `LocalSize` at
the overridden value; the restore only happens on the normal path. -/
def compileOneE (sizeInfo : List (String × N3)) (wrFails : String → Bool)
    (k : String) (ls : N3) : Except N3 (KernelArtifacts × N3) :=
  let old := ls
  let used := overrideSize sizeInfo k ls
  if wrFails k then Except.error used
  else
    Except.ok
      ({ kname := k, launcher := launcherName k, workgroup := workgroupSymbolFor k,
         usedLocalSize := used }, old)

/-- Compilation of one kernel on the normal (non-failing) path: metadata
override, replication with the overridden size, restore of `LocalSize` to
the saved value. -/
def compileOne (sizeInfo : List (String × N3)) (k : String) (ls : N3) :
    KernelArtifacts × N3 :=
  let used := overrideSize sizeInfo k ls
  ({ kname := k, launcher := launcherName k, workgroup := workgroupSymbolFor k,
     usedLocalSize := used }, ls)

/-- One iteration of the kernel loop: skip filtered-out kernels entirely
(no header lines, no artifacts); otherwise emit the two header lines and
compile, threading the `LocalSize` state. -/
def moduleStep (sizeInfo : List (String × N3)) (filter : String)
    (acc : List String × List KernelArtifacts × N3) (k : String) :
    List String × List KernelArtifacts × N3 :=
  if skipKernel filter k then acc
  else
    let r := compileOne sizeInfo k acc.2.2
    (acc.1 ++ headerLinesFor k, acc.2.1 ++ [r.1], r.2)

/-- `Workgroup::runOnModule` over the kernel registry: the header stream
contents, the per-kernel artifacts, the final `LocalSize`, and the pass's
return value — which is the constant `true` of line 164, regardless of
how many kernels (possibly zero) were compiled. -/
def runOnModule (kernels : List String) (sizeInfo : List (String × N3))
    (filter : String) (ls0 : N3) :
    (List String × List KernelArtifacts × N3) × Bool :=
  (kernels.foldl (moduleStep sizeInfo filter) ([], [], ls0), true)

/-! ## Work-item replication (stage 3, `WorkitemReplication`)

Only the call sites of `WorkitemReplication` are part of this
repository's sources, so the transformation is modelled from the spec
(§4.3): for a kernel with zero barriers the whole function is one region,
and replication emits one clone of the body per linearized work-item
index, in index order; within a clone every private definition — the
local id and every register — is renamed to that clone's private copies,
while the work-group-shared buffer is not cloned (all replicas alias the
same storage). -/

/-- Kernel-body instructions: read the local id, private register
arithmetic, and loads/stores on the shared buffer (which models `local`
and `global` memory and the kernel's buffer arguments alike). -/
inductive KInstr where
  | getLid (dst : Nat)
  | litConst (dst : Nat) (v : Nat)
  | addR (dst a b : Nat)
  | loadBuf (dst aReg : Nat)
  | storeBuf (aReg vReg : Nat)
  deriving DecidableEq

/-- A work-item execution state: the private register file and the shared
buffer. -/
structure KState where
  regs : Nat → Nat
  buf : Nat → Nat

/-- One instruction of the original single-work-item body, executed by the
work item with local id `lid`. -/
def stepK (lid : Nat) (st : KState) : KInstr → KState
  | .getLid d => { st with regs := upd st.regs d lid }
  | .litConst d v => { st with regs := upd st.regs d v }
  | .addR d a b => { st with regs := upd st.regs d (st.regs a + st.regs b) }
  | .loadBuf d a => { st with regs := upd st.regs d (st.buf (st.regs a)) }
  | .storeBuf a v => { st with buf := upd st.buf (st.regs a) (st.regs v) }

/-- Execution of a body by the work item with local id `lid`. -/
def runK (lid : Nat) (body : List KInstr) (st : KState) : KState :=
  body.foldl (stepK lid) st

/-- One register past the largest register an instruction mentions. -/
def instrBound : KInstr → Nat
  | .getLid d => d + 1
  | .litConst d _ => d + 1
  | .addR d a b => max (d + 1) (max (a + 1) (b + 1))
  | .loadBuf d a => max (d + 1) (a + 1)
  | .storeBuf a v => max (a + 1) (v + 1)

/-- One register past the largest register a body mentions: the width of
one work item's private register block. -/
def regBound (body : List KInstr) : Nat :=
  body.foldl (fun m ins => max m (instrBound ins)) 0

/-- Modelled from the spec: specialization of one instruction for the
clone of work item `i` — every private register is renamed into that
clone's block (offset `off`), and a read of the local id becomes the
constant `i`; buffer accesses keep addressing the one shared buffer. -/
def shiftInstr (off i : Nat) : KInstr → KInstr
  | .getLid d => .litConst (d + off) i
  | .litConst d v => .litConst (d + off) v
  | .addR d a b => .addR (d + off) (a + off) (b + off)
  | .loadBuf d a => .loadBuf (d + off) (a + off)
  | .storeBuf a v => .storeBuf (a + off) (v + off)

/-- Modelled from the spec: the work-item-replicated function for a
zero-barrier kernel with local size `(n,1,1)` — the clones of the single
region for work items `0..n-1`, in order, each with its own private
register block. -/
def replicateWI (n : Nat) (body : List KInstr) : List KInstr :=
  (List.range n).flatMap fun i => body.map (shiftInstr (i * regBound body) i)

/-- Reference semantics the spec compares against: run the original
single-work-item body once per local id `0..n-1`, sequentially, each run
with fresh (zeroed) private registers, threading the shared buffer. -/
def runSequential (n : Nat) (body : List KInstr) (buf : Nat → Nat) : Nat → Nat :=
  (List.range n).foldl (fun b i => (runK i body ⟨fun _ => 0, b⟩).buf) buf

/-- Last character of a string, used to tell the two header-line shapes
apart for any kernel name. -/
def lastCh (s : String) : Option Char := s.data.reverse.head?

/-- The artifacts record `compileOne` produces for kernel `k` when
`LocalSize` holds `ls` on entry. -/
def mkArtifact (si : List (String × N3)) (k : String) (ls : N3) : KernelArtifacts :=
  { kname := k, launcher := launcherName k, workgroup := workgroupSymbolFor k,
    usedLocalSize := overrideSize si k ls }

/-! # Theorems -/

/-- C3: the dispatch context record type is emitted identically for every
kernel as a struct whose members, in this exact order and width, are
`work_dim : u32`, `num_groups : u32[3]`, `group_id : u32[3]`,
`global_offset : u32[3]` — with the `Fields` enum indices 0..3 and byte
offsets 0, 4, 16, 28 in a 40-byte record. -/
theorem ctx_layout_c3 :
    (∀ k : String,
      poclContextTypeFor k =
        LTy.structT (LTy.i 32) (LTy.arrT 3 (LTy.i 32)) (LTy.arrT 3 (LTy.i 32))
          (LTy.arrT 3 (LTy.i 32)))
    ∧ fieldIndex CtxField.WORK_DIM = 0
    ∧ fieldIndex CtxField.NUM_GROUPS = 1
    ∧ fieldIndex CtxField.GROUP_ID = 2
    ∧ fieldIndex CtxField.GLOBAL_OFFSET = 3
    ∧ ctxFieldOffset CtxField.WORK_DIM = 0
    ∧ ctxFieldOffset CtxField.NUM_GROUPS = 4
    ∧ ctxFieldOffset CtxField.GROUP_ID = 16
    ∧ ctxFieldOffset CtxField.GLOBAL_OFFSET = 28
    ∧ bytesOf poclContextType = 40 := by
  exact ⟨fun _ => rfl, by decide, by decide, by decide, by decide, by decide,
    by decide, by decide, by decide, by decide⟩

/-- C2 counterexample: the synthesized type-erased entry point for kernel
`dot_product` is *not* named `dot_product_workgroup` — `createWorkgroup`
receives the launcher, whose name already carries a leading underscore. -/
theorem workgroup_symbol_c2_counterexample :
    workgroupSymbolFor "dot_product" ≠ "dot_product" ++ "_workgroup" := by
  decide

/-- C2 (amended): the synthesized type-erased entry point for a kernel
named `K` is the function whose symbol is exactly an underscore, then `K`,
then `_workgroup` (`_<kernel>_workgroup`): the workgroup wrapper appends
`_workgroup` to the launcher's name `_<kernel>`. -/
theorem workgroup_symbol_c2 (k : String) :
    workgroupSymbolFor k = "_" ++ k ++ "_workgroup"
    ∧ (workgroupSymbolFor k).data = '_' :: (k.data ++ "_workgroup".data) := by
  constructor
  · rfl
  · show (("_" ++ k) ++ "_workgroup").data = _
    simp [String.data_append]

/-- C7: the synthesized launcher is marked `NoInline`, and every one of
its parameters — each original kernel parameter and the trailing context
pointer — carries the `DoesNotAlias` attribute (attribute index `i+1` for
parameter `i`, index 0 being the return value). -/
theorem launcher_attrs_c7 (k : String) (ts : List LTy) :
    (synthesizeLauncher k ts).noinline = true
    ∧ ∀ i, i < ts.length + 1 → (i + 1) ∈ (synthesizeLauncher k ts).noaliasIdx := by
  constructor
  · rfl
  · intro i hi
    simp only [synthesizeLauncher, noaliasArguments, mkLauncherFunc, List.mem_map,
      List.mem_range]
    exact ⟨i, by simpa using hi, rfl⟩

/-- C7 witness: concrete one-parameter kernel — the launcher has two
parameters (the kernel argument and the context pointer), both noalias,
and is noinline. -/
theorem launcher_attrs_c7_witness :
    (0 < 1 + 1 ∧ 1 < 1 + 1)
    ∧ (synthesizeLauncher "dot" [LTy.i 32]).noinline = true
    ∧ (0 + 1) ∈ (synthesizeLauncher "dot" [LTy.i 32]).noaliasIdx
    ∧ (1 + 1) ∈ (synthesizeLauncher "dot" [LTy.i 32]).noaliasIdx := by
  refine ⟨⟨by decide, by decide⟩, (launcher_attrs_c7 "dot" [LTy.i 32]).1, ?_, ?_⟩
  · exact (launcher_attrs_c7 "dot" [LTy.i 32]).2 0 (by decide)
  · exact (launcher_attrs_c7 "dot" [LTy.i 32]).2 1 (by decide)

/-- C6: executing the synthesized launcher body: when the module defines
`_group_id` the launcher loads the `group_id` field of the context record
and stores it into that global, likewise and independently `_num_groups`
from the `num_groups` field; absent globals are skipped silently; the
kernel body is always called, with its original parameters, after all the
stores — the full event trace is the conditional stores followed by the
call, and the final global store is updated exactly at the present
globals. -/
theorem launcher_behavior_c6 (n : Nat) (hg hng : Bool) (c : PoclContextVal)
    (kargs : Nat → Val) (G : String → Option Val) :
    evalLauncher c (createLauncherBody n hg hng) (launcherInitRegs n kargs) G []
    = some
        ((if hng then
            upd (if hg then upd G "_group_id" (some (tripOf c.groupId)) else G)
              "_num_groups" (some (tripOf c.numGroups))
          else if hg then upd G "_group_id" (some (tripOf c.groupId)) else G),
         (if hg then [LEvent.stored "_group_id" (tripOf c.groupId)] else []) ++
           (if hng then [LEvent.stored "_num_groups" (tripOf c.numGroups)] else []) ++
           [LEvent.calledKernel (List.range n)]) := by
  cases hg <;> cases hng <;>
    simp [createLauncherBody, evalLauncher, launcherInitRegs, ctxFieldVal, fieldIndex,
      upd, tripOf]

/-! ## Helper lemmas on strings and the module fold -/

/-- A string squeezed between two fixed affixes determines itself. -/
theorem string_affix_injective (p s a b : String)
    (h : p ++ a ++ s = p ++ b ++ s) : a = b := by
  have hd : p.data ++ a.data ++ s.data = p.data ++ b.data ++ s.data := by
    have h2 := congrArg String.data h
    simpa [String.data_append] using h2
  have h3 : a.data = b.data :=
    List.append_cancel_left (List.append_cancel_right hd)
  cases a; cases b; exact congrArg String.mk h3

/-- The last character of `a ++ b` is the last character of a nonempty
`b`. -/
theorem lastCh_append (a b : String) (c : Char) (h : b.data.reverse.head? = some c) :
    lastCh (a ++ b) = some c := by
  unfold lastCh
  rw [String.data_append, List.reverse_append]
  cases hb : b.data.reverse with
  | nil => rw [hb] at h; simp at h
  | cons x xs => rw [hb] at h; simp at h; simp [h]

/-- `numLocalsLine` is keyed by the kernel name. -/
theorem numLocalsLine_injective (a b : String) (h : numLocalsLine a = numLocalsLine b) :
    a = b :=
  string_affix_injective "#define _" "_NUM_LOCALS 0" a b h

/-- `localSizeLine` is keyed by the kernel name. -/
theorem localSizeLine_injective (a b : String) (h : localSizeLine a = localSizeLine b) :
    a = b :=
  string_affix_injective "#define _" "_LOCAL_SIZE \x7b\x7d" a b h

/-- A `NUM_LOCALS` line is never a `LOCAL_SIZE` line, for any two kernel
names: they end in different characters. -/
theorem numLocalsLine_ne_localSizeLine (a b : String) :
    numLocalsLine a ≠ localSizeLine b := by
  intro h
  have h1 : lastCh (numLocalsLine a) = some '0' :=
    lastCh_append ("#define _" ++ a) "_NUM_LOCALS 0" '0' (by decide)
  have h2 : lastCh (localSizeLine b) = some '\x7d' :=
    lastCh_append ("#define _" ++ b) "_LOCAL_SIZE \x7b\x7d" '\x7d' (by decide)
  rw [h, h2] at h1
  simp at h1

/-- Unfolding the kernel loop of `runOnModule`: the header is the
concatenation of the two-line blocks of the unfiltered kernels, the
artifact list has one entry per unfiltered kernel, and — because every
per-kernel compilation restores `LocalSize` — the threaded `LocalSize`
both stays `ls` across iterations and ends at `ls`. -/
theorem moduleFold_spec (si : List (String × N3)) (f : String) :
    ∀ (ks : List String) (h0 : List String) (as0 : List KernelArtifacts) (ls : N3),
    List.foldl (moduleStep si f) (h0, as0, ls) ks
    = (h0 ++ ks.flatMap (fun k => if skipKernel f k then [] else headerLinesFor k),
       as0 ++ ks.flatMap (fun k => if skipKernel f k then [] else [mkArtifact si k ls]),
       ls) := by
  intro ks
  induction ks with
  | nil => intro h0 as0 ls; simp
  | cons k rest ih =>
    intro h0 as0 ls
    by_cases h : skipKernel f k = true
    · simp [moduleStep, h, ih]
    · simp only [Bool.not_eq_true] at h
      simp [moduleStep, h, compileOne, ih, mkArtifact]

/-- The header component of `runOnModule`. -/
theorem runOnModule_header (ks : List String) (si : List (String × N3)) (f : String)
    (ls0 : N3) :
    (runOnModule ks si f ls0).1.1
    = ks.flatMap (fun k => if skipKernel f k then [] else headerLinesFor k) := by
  simp [runOnModule, moduleFold_spec]

/-- The artifact component of `runOnModule`. -/
theorem runOnModule_arts (ks : List String) (si : List (String × N3)) (f : String)
    (ls0 : N3) :
    (runOnModule ks si f ls0).1.2.1
    = ks.flatMap (fun k => if skipKernel f k then [] else [mkArtifact si k ls0]) := by
  simp [runOnModule, moduleFold_spec]

/-- `LocalSize` after the whole pass equals the externally configured
value it started with. -/
theorem runOnModule_finalLS (ks : List String) (si : List (String × N3)) (f : String)
    (ls0 : N3) :
    (runOnModule ks si f ls0).1.2.2 = ls0 := by
  simp [runOnModule, moduleFold_spec]

/-- Occurrences of a `NUM_LOCALS` line inside one kernel's two-line
block. -/
theorem count_block_num (a b : String) :
    (headerLinesFor a).count (numLocalsLine b) = if a = b then 1 else 0 := by
  by_cases h : a = b
  · subst h
    simp [headerLinesFor, List.count_cons, numLocalsLine_ne_localSizeLine a a]
  · have h1 : numLocalsLine a ≠ numLocalsLine b := fun he => h (numLocalsLine_injective a b he)
    simp [headerLinesFor, List.count_cons, h, h1,
      (numLocalsLine_ne_localSizeLine b a).symm]

/-- Occurrences of a `LOCAL_SIZE` line inside one kernel's two-line
block. -/
theorem count_block_ls (a b : String) :
    (headerLinesFor a).count (localSizeLine b) = if a = b then 1 else 0 := by
  by_cases h : a = b
  · subst h
    simp [headerLinesFor, List.count_cons,
      fun he => numLocalsLine_ne_localSizeLine a a he]
  · have h1 : localSizeLine a ≠ localSizeLine b := fun he => h (localSizeLine_injective a b he)
    simp [headerLinesFor, List.count_cons, h, h1,
      fun he => numLocalsLine_ne_localSizeLine a b he]

/-- A kernel not in the registry leaves no `NUM_LOCALS` line in the
header. -/
theorem count_header_num_zero (f k : String) :
    ∀ ks : List String, k ∉ ks →
    ((ks.flatMap fun q => if skipKernel f q then [] else headerLinesFor q).count
      (numLocalsLine k)) = 0 := by
  intro ks
  induction ks with
  | nil => intro _; simp
  | cons q rest ih =>
    intro hk
    have hq : q ≠ k := fun he => hk (he ▸ List.mem_cons_self q rest)
    have hr : k ∉ rest := fun hm => hk (List.mem_cons_of_mem q hm)
    by_cases hs : skipKernel f q = true
    · simp [hs, ih hr]
    · simp only [Bool.not_eq_true] at hs
      simp [hs, List.count_append, ih hr, count_block_num, hq]

/-- A kernel not in the registry leaves no `LOCAL_SIZE` line in the
header. -/
theorem count_header_ls_zero (f k : String) :
    ∀ ks : List String, k ∉ ks →
    ((ks.flatMap fun q => if skipKernel f q then [] else headerLinesFor q).count
      (localSizeLine k)) = 0 := by
  intro ks
  induction ks with
  | nil => intro _; simp
  | cons q rest ih =>
    intro hk
    have hq : q ≠ k := fun he => hk (he ▸ List.mem_cons_self q rest)
    have hr : k ∉ rest := fun hm => hk (List.mem_cons_of_mem q hm)
    by_cases hs : skipKernel f q = true
    · simp [hs, ih hr]
    · simp only [Bool.not_eq_true] at hs
      simp [hs, List.count_append, ih hr, count_block_ls, hq]

/-- In a duplicate-free registry, a member kernel's `NUM_LOCALS` line
appears exactly once when it passes the filter, never otherwise. -/
theorem count_header_num (f k : String) :
    ∀ ks : List String, ks.Nodup → k ∈ ks →
    ((ks.flatMap fun q => if skipKernel f q then [] else headerLinesFor q).count
      (numLocalsLine k)) = if skipKernel f k then 0 else 1 := by
  intro ks
  induction ks with
  | nil => intro _ hk; simp at hk
  | cons q rest ih =>
    intro hnd hk
    have hnd' := hnd.of_cons
    by_cases hqk : q = k
    · subst hqk
      have hrest : q ∉ rest := (List.nodup_cons.mp hnd).1
      by_cases hs : skipKernel f q = true
      · simp [hs, count_header_num_zero f q rest hrest]
      · simp only [Bool.not_eq_true] at hs
        simp [hs, List.count_append, count_header_num_zero f q rest hrest,
          count_block_num]
    · have hkrest : k ∈ rest := by
        rcases List.mem_cons.mp hk with h | h
        · exact absurd h.symm hqk
        · exact h
      by_cases hs : skipKernel f q = true
      · simp [hs, ih hnd' hkrest]
      · simp only [Bool.not_eq_true] at hs
        simp [hs, List.count_append, ih hnd' hkrest, count_block_num, hqk]

/-- In a duplicate-free registry, a member kernel's `LOCAL_SIZE` line
appears exactly once when it passes the filter, never otherwise. -/
theorem count_header_ls (f k : String) :
    ∀ ks : List String, ks.Nodup → k ∈ ks →
    ((ks.flatMap fun q => if skipKernel f q then [] else headerLinesFor q).count
      (localSizeLine k)) = if skipKernel f k then 0 else 1 := by
  intro ks
  induction ks with
  | nil => intro _ hk; simp at hk
  | cons q rest ih =>
    intro hnd hk
    have hnd' := hnd.of_cons
    by_cases hqk : q = k
    · subst hqk
      have hrest : q ∉ rest := (List.nodup_cons.mp hnd).1
      by_cases hs : skipKernel f q = true
      · simp [hs, count_header_ls_zero f q rest hrest]
      · simp only [Bool.not_eq_true] at hs
        simp [hs, List.count_append, count_header_ls_zero f q rest hrest,
          count_block_ls]
    · have hkrest : k ∈ rest := by
        rcases List.mem_cons.mp hk with h | h
        · exact absurd h.symm hqk
        · exact h
      by_cases hs : skipKernel f q = true
      · simp [hs, ih hnd' hkrest]
      · simp only [Bool.not_eq_true] at hs
        simp [hs, List.count_append, ih hnd' hkrest, count_block_ls, hqk]

/-- C9: for each compiled kernel — one passing the kernel-name filter —
and only for compiled kernels, exactly one pair of macro lines keyed by
the kernel's name is written to the header output: its `NUM_LOCALS` count
and its `LOCAL_SIZE` literal; and every header line belongs to some
compiled kernel. -/
theorem header_pairs_c9 (ks : List String) (si : List (String × N3)) (f : String)
    (ls0 : N3) (k : String) (hnd : ks.Nodup) (hk : k ∈ ks) :
    ((runOnModule ks si f ls0).1.1.count (numLocalsLine k)
        = if skipKernel f k then 0 else 1)
    ∧ ((runOnModule ks si f ls0).1.1.count (localSizeLine k)
        = if skipKernel f k then 0 else 1)
    ∧ ∀ l ∈ (runOnModule ks si f ls0).1.1,
        ∃ q, q ∈ ks ∧ skipKernel f q = false
          ∧ (l = numLocalsLine q ∨ l = localSizeLine q) := by
  rw [runOnModule_header]
  refine ⟨count_header_num f k ks hnd hk, count_header_ls f k ks hnd hk, ?_⟩
  intro l hl
  rcases List.mem_flatMap.mp hl with ⟨q, hq, hlq⟩
  by_cases hs : skipKernel f q = true
  · rw [if_pos hs] at hlq
    simp at hlq
  · simp only [Bool.not_eq_true] at hs
    rw [if_neg (by simp [hs])] at hlq
    simp only [headerLinesFor, List.mem_cons, List.not_mem_nil, or_false] at hlq
    rcases hlq with h | h
    · exact ⟨q, hq, hs, Or.inl h⟩
    · exact ⟨q, hq, hs, Or.inr h⟩

/-- C9 witness: two kernels, no filter — each gets exactly one pair of
header lines. -/
theorem header_pairs_c9_witness :
    (["mmul", "vadd"] : List String).Nodup ∧ "mmul" ∈ (["mmul", "vadd"] : List String)
    ∧ ((runOnModule ["mmul", "vadd"] [] "" (1, 1, 1)).1.1.count (numLocalsLine "mmul")
        = if skipKernel "" "mmul" then 0 else 1)
    ∧ ((runOnModule ["mmul", "vadd"] [] "" (1, 1, 1)).1.1.count (localSizeLine "mmul")
        = if skipKernel "" "mmul" then 0 else 1) := by
  refine ⟨by decide, by decide, ?_, ?_⟩
  · exact (header_pairs_c9 ["mmul", "vadd"] [] "" (1, 1, 1) "mmul" (by decide)
      (by decide)).1
  · exact (header_pairs_c9 ["mmul", "vadd"] [] "" (1, 1, 1) "mmul" (by decide)
      (by decide)).2.1

/-- With a nonempty filter, a kernel survives the skip test only by
matching it. -/
theorem skipKernel_false_of_ne (f q : String) (hf : f ≠ "")
    (h : skipKernel f q = false) : q = f := by
  simp [skipKernel, hf] at h
  exact h

/-- With a nonempty filter, a kernel that differs from it is skipped. -/
theorem skipKernel_true_of_ne (f q : String) (hf : f ≠ "") (hq : q ≠ f) :
    skipKernel f q = true := by
  simp [skipKernel, hf, hq]

/-- C10: when a kernel-name filter is configured (nonempty), every kernel
whose name differs from the filter is skipped entirely — no artifacts
(launcher/workgroup synthesis) and no header lines are produced for it —
and the pass still returns `true` (success), in particular when the filter
matches no kernel at all (zero kernels compiled, empty outputs, still
`true`). -/
theorem filter_skip_c10 (ks : List String) (si : List (String × N3)) (f : String)
    (ls0 : N3) (hf : f ≠ "") :
    (∀ k, k ∈ ks → k ≠ f →
        (∀ a ∈ (runOnModule ks si f ls0).1.2.1, a.kname ≠ k)
      ∧ (∀ l ∈ (runOnModule ks si f ls0).1.1, l ≠ numLocalsLine k ∧ l ≠ localSizeLine k))
    ∧ ((∀ k ∈ ks, k ≠ f) →
        (runOnModule ks si f ls0).1.2.1 = [] ∧ (runOnModule ks si f ls0).1.1 = [])
    ∧ (runOnModule ks si f ls0).2 = true := by
  refine ⟨?_, ?_, rfl⟩
  · intro k _ hkf
    constructor
    · intro a ha
      rw [runOnModule_arts] at ha
      rcases List.mem_flatMap.mp ha with ⟨q, _, haq⟩
      by_cases hs : skipKernel f q = true
      · rw [if_pos hs] at haq
        simp at haq
      · simp only [Bool.not_eq_true] at hs
        rw [if_neg (by simp [hs])] at haq
        have hq : q = f := skipKernel_false_of_ne f q hf hs
        simp only [List.mem_singleton] at haq
        subst haq
        simp only [mkArtifact]
        exact fun he => hkf (he ▸ hq)
    · intro l hl
      rw [runOnModule_header] at hl
      rcases List.mem_flatMap.mp hl with ⟨q, _, hlq⟩
      by_cases hs : skipKernel f q = true
      · rw [if_pos hs] at hlq
        simp at hlq
      · simp only [Bool.not_eq_true] at hs
        rw [if_neg (by simp [hs])] at hlq
        have hq : q = f := skipKernel_false_of_ne f q hf hs
        have hqk : q ≠ k := fun he => hkf (he ▸ hq)
        simp only [headerLinesFor, List.mem_cons, List.not_mem_nil, or_false] at hlq
        rcases hlq with h | h <;> subst h
        · exact ⟨fun he => hqk (numLocalsLine_injective q k he),
            fun he => numLocalsLine_ne_localSizeLine q k he⟩
        · exact ⟨fun he => numLocalsLine_ne_localSizeLine k q he.symm,
            fun he => hqk (localSizeLine_injective q k he)⟩
  · intro hall
    have hskip : ∀ q ∈ ks, skipKernel f q = true := fun q hq =>
      skipKernel_true_of_ne f q hf (hall q hq)
    constructor
    · rw [runOnModule_arts]
      induction ks with
      | nil => simp
      | cons q rest ih =>
        simp only [List.flatMap_cons, hskip q (List.mem_cons_self q rest), if_pos,
          List.nil_append]
        exact ih (fun p hp => hall p (List.mem_cons_of_mem q hp))
          (fun p hp => hskip p (List.mem_cons_of_mem q hp))
    · rw [runOnModule_header]
      induction ks with
      | nil => simp
      | cons q rest ih =>
        simp only [List.flatMap_cons, hskip q (List.mem_cons_self q rest), if_pos,
          List.nil_append]
        exact ih (fun p hp => hall p (List.mem_cons_of_mem q hp))
          (fun p hp => hskip p (List.mem_cons_of_mem q hp))

/-- C10 witness: registry `["vadd", "mmul"]`, filter `"mmul"` — kernel
`vadd` produces no artifacts, and filter `"none"` matching nothing still
returns `true` with empty outputs. -/
theorem filter_skip_c10_witness :
    ("mmul" : String) ≠ ""
    ∧ (∀ a ∈ (runOnModule ["vadd", "mmul"] [] "mmul" (1, 1, 1)).1.2.1, a.kname ≠ "vadd")
    ∧ ((runOnModule ["vadd", "mmul"] [] "none" (1, 1, 1)).1.2.1 = []
        ∧ (runOnModule ["vadd", "mmul"] [] "none" (1, 1, 1)).1.1 = [])
    ∧ (runOnModule ["vadd", "mmul"] [] "none" (1, 1, 1)).2 = true := by
  refine ⟨by decide, ?_, ?_, ?_⟩
  · exact ((filter_skip_c10 ["vadd", "mmul"] [] "mmul" (1, 1, 1) (by decide)).1 "vadd"
      (by decide) (by decide)).1
  · exact (filter_skip_c10 ["vadd", "mmul"] [] "none" (1, 1, 1) (by decide)).2.1
      (by decide)
  · exact (filter_skip_c10 ["vadd", "mmul"] [] "none" (1, 1, 1) (by decide)).2.2

/-- C5 counterexample: external default `(8,8,1)`, kernel `matA` carrying
required-size metadata `(4,4,1)`, and the replication stage leaving by an
exceptional path: the kernel's compilation exits with `LocalSize` still at
the overridden `(4,4,1)` — the save/override/restore of lines 137-154 is
straight-line code with no scope guard, so on this exit path the
externally configured size is *not* restored. -/
theorem localsize_restore_c5_counterexample :
    compileOneE [("matA", (4, 4, 1))] (fun _ => true) "matA" (8, 8, 1)
      = Except.error (4, 4, 1)
    ∧ ((4, 4, 1) : N3) ≠ (8, 8, 1) := by
  exact ⟨rfl, by decide⟩

/-- C5 (amended): a kernel carrying required-work-group-size metadata is
compiled with the metadata value in place of the externally configured
local size, for that kernel only; on *normal completion* of each kernel's
compilation the external size is restored, so every kernel (in particular
every later one without metadata) is compiled against the external
default; but on an exceptional exit from the replication stage the
override is not restored — the exit carries the overridden value. -/
theorem localsize_restore_c5 (ks : List String) (si : List (String × N3)) (f : String)
    (ls0 : N3) :
    (∀ a ∈ (runOnModule ks si f ls0).1.2.1, a.usedLocalSize = overrideSize si a.kname ls0)
    ∧ (runOnModule ks si f ls0).1.2.2 = ls0
    ∧ (∀ k ls, (∀ e ∈ si, e.1 ≠ k) → overrideSize si k ls = ls)
    ∧ (∀ (wf : String → Bool) k ls, wf k = true →
        compileOneE si wf k ls = Except.error (overrideSize si k ls)) := by
  refine ⟨?_, runOnModule_finalLS ks si f ls0, ?_, ?_⟩
  · intro a ha
    rw [runOnModule_arts] at ha
    rcases List.mem_flatMap.mp ha with ⟨q, _, haq⟩
    by_cases hs : skipKernel f q = true
    · rw [if_pos hs] at haq
      simp at haq
    · simp only [Bool.not_eq_true] at hs
      rw [if_neg (by simp [hs])] at haq
      simp only [List.mem_singleton] at haq
      subst haq
      rfl
  · intro k ls hne
    induction si with
    | nil => rfl
    | cons e rest ih =>
      have he : e.1 ≠ k := hne e (List.mem_cons_self e rest)
      have ih2 := ih (fun e2 h2 => hne e2 (List.mem_cons_of_mem e h2))
      simpa [overrideSize, he] using ih2
  · intro wf k ls hwf
    simp [compileOneE, hwf]

/-- C5 witness: default `(8,8,1)`, `matA` carries metadata `(4,4,1)`,
`matB` carries none — `matB`'s compilation uses `(8,8,1)` again, the final
`LocalSize` is the default, and a failing replication stage exits with the
override in place. -/
theorem localsize_restore_c5_witness :
    (mkArtifact [("matA", (4, 4, 1))] "matB" (8, 8, 1)
        ∈ (runOnModule ["matA", "matB"] [("matA", (4, 4, 1))] "" (8, 8, 1)).1.2.1)
    ∧ (mkArtifact [("matA", (4, 4, 1))] "matB" (8, 8, 1)).usedLocalSize
        = overrideSize [("matA", (4, 4, 1))] "matB" (8, 8, 1)
    ∧ (runOnModule ["matA", "matB"] [("matA", (4, 4, 1))] "" (8, 8, 1)).1.2.2 = (8, 8, 1)
    ∧ compileOneE [("matA", (4, 4, 1))] (fun _ => true) "matA" (8, 8, 1)
        = Except.error (overrideSize [("matA", (4, 4, 1))] "matA" (8, 8, 1)) := by
  refine ⟨by decide, ?_, ?_, ?_⟩
  · exact (localsize_restore_c5 ["matA", "matB"] [("matA", (4, 4, 1))] "" (8, 8, 1)).1 _
      (by decide)
  · exact (localsize_restore_c5 ["matA", "matB"] [("matA", (4, 4, 1))] "" (8, 8, 1)).2.1
  · exact (localsize_restore_c5 ["matA", "matB"] [("matA", (4, 4, 1))] "" (8, 8, 1)).2.2.2
      (fun _ => true) "matA" (8, 8, 1) rfl

/-- A successful inlining fixpoint contains no call to a unit-defined
function: the loop only returns once the no-defined-callee check
passes. -/
theorem inlineCalls_resolved (defs : String → Option (List String)) :
    ∀ (fuel : Nat) (calls r : List String), inlineCalls defs fuel calls = some r →
    ∀ c ∈ r, defs c = none := by
  intro fuel
  induction fuel with
  | zero =>
    intro calls r h
    simp [inlineCalls] at h
  | succ n ih =>
    intro calls r h
    by_cases hall : calls.all (fun c => (defs c).isNone) = true
    · rw [inlineCalls, if_pos hall] at h
      cases h
      intro c hc
      have h2 := List.all_eq_true.mp hall c hc
      simpa using h2
    · rw [inlineCalls, if_neg hall] at h
      exact ih _ _ h

/-- C8: before per-kernel processing every function defined (not merely
declared) in the unit is marked unit-local (`InternalLinkage`) — in
particular every defined function that is not externally visible — and a
body on which the normalizer's inlining fixpoint succeeds contains no
call to a function defined in the unit. -/
theorem normalize_c8 (fns : List MFn) (fuel : Nat) (calls r : List String)
    (hin : inlineCalls (lookupDef fns) fuel calls = some r) :
    (∀ g ∈ internalize fns, g.isDecl = false → g.linkage = Linkage.internal)
    ∧ ∀ c ∈ r, lookupDef fns c = none := by
  constructor
  · intro g hg hdecl
    rcases List.mem_map.mp hg with ⟨g0, _, he⟩
    by_cases hd : g0.isDecl = true
    · rw [if_pos hd] at he
      rw [he, hdecl] at hd
      exact absurd hd (by decide)
    · rw [if_neg hd] at he
      rw [← he]
  · exact inlineCalls_resolved (lookupDef fns) fuel calls r hin

/-- C8 witness: a unit with kernel `kernelA` calling defined helper
`helper`, which calls the external declaration `extern_fn`.  Inlining
resolves `kernelA`'s body to `["extern_fn"]`; `helper` ends up with
internal linkage; the resolved body calls nothing defined in the unit. -/
theorem normalize_c8_witness :
    (inlineCalls
        (lookupDef [⟨"kernelA", false, Linkage.external, ["helper"]⟩,
          ⟨"helper", false, Linkage.external, ["extern_fn"]⟩])
        3 ["helper"] = some ["extern_fn"])
    ∧ (⟨"helper", false, Linkage.internal, ["extern_fn"]⟩ : MFn)
        ∈ internalize [⟨"kernelA", false, Linkage.external, ["helper"]⟩,
            ⟨"helper", false, Linkage.external, ["extern_fn"]⟩]
    ∧ (⟨"helper", false, Linkage.internal, ["extern_fn"]⟩ : MFn).linkage
        = Linkage.internal
    ∧ lookupDef [⟨"kernelA", false, Linkage.external, ["helper"]⟩,
        ⟨"helper", false, Linkage.external, ["extern_fn"]⟩] "extern_fn" = none := by
  refine ⟨by decide, by decide, ?_, ?_⟩
  · exact (normalize_c8
      [⟨"kernelA", false, Linkage.external, ["helper"]⟩,
        ⟨"helper", false, Linkage.external, ["extern_fn"]⟩]
      3 ["helper"] ["extern_fn"] (by decide)).1
      ⟨"helper", false, Linkage.internal, ["extern_fn"]⟩ (by decide) (by decide)
  · exact (normalize_c8
      [⟨"kernelA", false, Linkage.external, ["helper"]⟩,
        ⟨"helper", false, Linkage.external, ["extern_fn"]⟩]
      3 ["helper"] ["extern_fn"] (by decide)).2 "extern_fn" (by decide)

/-! ## Execution of the synthesized workgroup body -/

/-- One `gep` step of the workgroup evaluator. -/
theorem evalWG_gep (d b i : Nat) (rest : List WInstr) (regs : Nat → Option Val)
    (mem : Nat → Option Val) (a : Nat) (h : regs b = some (Val.addr a)) :
    evalWG (WInstr.gep d b i :: rest) regs mem
    = evalWG rest (upd regs d (some (Val.addr (a + i)))) mem := by
  simp [evalWG, h]

/-- One `load` step of the workgroup evaluator. -/
theorem evalWG_load (d s : Nat) (rest : List WInstr) (regs : Nat → Option Val)
    (mem : Nat → Option Val) (a : Nat) (w : Val) (h1 : regs s = some (Val.addr a))
    (h2 : mem a = some w) :
    evalWG (WInstr.loadI d s :: rest) regs mem = evalWG rest (upd regs d (some w)) mem := by
  simp [evalWG, h1, h2]

/-- One `bitcast` step of the workgroup evaluator: the bit pattern is
reinterpreted, not changed. -/
theorem evalWG_bitcast (d s : Nat) (t : LTy) (rest : List WInstr)
    (regs : Nat → Option Val) (mem : Nat → Option Val) (w : Val)
    (h : regs s = some w) :
    evalWG (WInstr.bitcastI d s t :: rest) regs mem
    = evalWG rest (upd regs d (some w)) mem := by
  simp [evalWG, h]

/-- `regValues` distributes over list append. -/
theorem regValues_append :
    ∀ (a b : List Nat) (f : Nat → Option Val) (va vb : List Val),
    regValues a f = some va → regValues b f = some vb →
    regValues (a ++ b) f = some (va ++ vb) := by
  intro a
  induction a with
  | nil =>
    intro b f va vb ha hb
    simp only [regValues] at ha
    cases ha
    simpa using hb
  | cons r rest ih =>
    intro b f va vb ha hb
    simp only [regValues] at ha
    cases hf : f r with
    | none => rw [hf] at ha; simp at ha
    | some w =>
      rw [hf] at ha
      cases hr : regValues rest f with
      | none => rw [hr] at ha; simp at ha
      | some vs =>
        rw [hr] at ha
        simp only [Option.some.injEq] at ha
        subst ha
        have hra : regValues (rest ++ b) f = some (vs ++ vb) := ih b f vs vb hr hb
        simp [List.cons_append, regValues, hf, hra]

/-- `regValues` over registers enumerated by `range`, given their
pointwise contents. -/
theorem regValues_map_range (fn : Nat → Nat) (g : Nat → Option Val) (h : Nat → Val) :
    ∀ m : Nat, (∀ j, j < m → g (fn j) = some (h j)) →
    regValues ((List.range m).map fn) g = some ((List.range m).map h) := by
  intro m
  induction m with
  | zero => intro _; simp [regValues]
  | succ n ih =>
    intro hp
    rw [List.range_succ]
    simp only [List.map_append, List.map_cons, List.map_nil]
    have h1 := ih (fun j hj => hp j (by omega))
    have h2 : regValues [fn n] g = some [h n] := by
      simp [regValues, hp n (by omega)]
    simpa using regValues_append _ _ g _ _ h1 h2

/-- The registers `createWorkgroup`'s loop collects the loaded arguments
in: the fourth fresh register of each iteration. -/
theorem wgLoop_ids (ts : List LTy) :
    ∀ i next : Nat,
    (wgLoop ts i next).2 = (List.range ts.length).map (fun j => next + 4 * j + 3) := by
  induction ts with
  | nil => intro i next; simp [wgLoop]
  | cons t rest ih =>
    intro i next
    simp only [wgLoop, List.length_cons]
    rw [List.range_succ_eq_map, List.map_cons, List.map_map, ih (i + 1) (next + 4)]
    have he : ((fun j => next + 4 * j + 3) ∘ Nat.succ) = fun j => next + 4 + 4 * j + 3 := by
      funext j
      simp only [Function.comp_apply]
      omega
    rw [he]

/-- `arguments.back() = r` on a nonempty list drops the last element and
appends `r`. -/
theorem setLast_eq (r : Nat) :
    ∀ l : List Nat, l ≠ [] → setLast l r = l.dropLast ++ [r] := by
  intro l
  induction l with
  | nil => intro h; exact absurd rfl h
  | cons x xs ih =>
    intro _
    cases xs with
    | nil => simp [setLast]
    | cons y ys =>
      have h2 := ih (by simp)
      simp only [setLast]
      rw [h2]
      simp

/-- Executing the argument-unpacking loop of the workgroup body: the loop
reads entries `i, i+1, …` of the argument array, dereferences each loaded
pointer once, leaves every register below `next` untouched, and leaves the
loaded value of entry `i+j` in register `next + 4*j + 3`. -/
theorem wgLoop_exec (mem : Nat → Option Val) (base : Nat) (p : Nat → Nat)
    (v : Nat → Val) :
    ∀ (ts : List LTy) (i next : Nat) (regs : Nat → Option Val) (tail : List WInstr),
    2 ≤ next →
    regs 0 = some (Val.addr base) →
    (∀ j, j < ts.length → mem (base + (i + j)) = some (Val.addr (p (i + j)))
        ∧ mem (p (i + j)) = some (v (i + j))) →
    ∃ regs',
      evalWG ((wgLoop ts i next).1 ++ tail) regs mem = evalWG tail regs' mem
      ∧ (∀ m, m < next → regs' m = regs m)
      ∧ (∀ j, j < ts.length → regs' (next + 4 * j + 3) = some (v (i + j))) := by
  intro ts
  induction ts with
  | nil =>
    intro i next regs tail _ _ _
    exact ⟨regs, by simp [wgLoop], fun m _ => rfl, fun j hj => by simp at hj⟩
  | cons t rest ih =>
    intro i next regs tail hnext hb hmem
    have hm0 := hmem 0 (by simp)
    rw [Nat.add_zero] at hm0
    set regs1 := upd regs next (some (Val.addr (base + i))) with hregs1
    set regs2 := upd regs1 (next + 1) (some (Val.addr (p i))) with hregs2
    set regs3 := upd regs2 (next + 2) (some (Val.addr (p i))) with hregs3
    set regs4 := upd regs3 (next + 3) (some (v i)) with hregs4
    have hb4 : regs4 0 = some (Val.addr base) := by
      rw [hregs4, hregs3, hregs2, hregs1]
      simp only [upd]
      rw [if_neg (by omega), if_neg (by omega), if_neg (by omega), if_neg (by omega)]
      exact hb
    have hmem' : ∀ j, j < rest.length →
        mem (base + (i + 1 + j)) = some (Val.addr (p (i + 1 + j)))
        ∧ mem (p (i + 1 + j)) = some (v (i + 1 + j)) := by
      intro j hj
      have h2 := hmem (j + 1) (by simpa using Nat.succ_lt_succ hj)
      have he : i + (j + 1) = i + 1 + j := by omega
      rw [he] at h2
      exact h2
    obtain ⟨regs', heval, hframe, hvals⟩ :=
      ih (i + 1) (next + 4) regs4 tail (by omega) hb4 hmem'
    refine ⟨regs', ?_, ?_, ?_⟩
    · simp only [wgLoop, List.cons_append]
      rw [evalWG_gep next 0 i _ regs mem base hb]
      rw [evalWG_load (next + 1) next _ regs1 mem (base + i) (Val.addr (p i))
        (by simp [hregs1, upd]) hm0.1]
      rw [evalWG_bitcast (next + 2) (next + 1) (LTy.ptrT t) _ regs2 mem (Val.addr (p i))
        (by simp [hregs2, upd])]
      rw [evalWG_load (next + 3) (next + 2) _ regs3 mem (p i) (v i)
        (by simp [hregs3, upd]) hm0.2]
      exact heval
    · intro m hm
      rw [hframe m (by omega), hregs4, hregs3, hregs2, hregs1]
      simp only [upd]
      rw [if_neg (by omega), if_neg (by omega), if_neg (by omega), if_neg (by omega)]
    · intro j hj
      cases j with
      | zero =>
        have h4 : regs' (next + 4 * 0 + 3) = regs4 (next + 3) := by
          have := hframe (next + 3) (by omega)
          simpa using this
        rw [h4, hregs4]
        simp [upd]
      | succ j2 =>
        have hj2 : j2 < rest.length := by simpa using Nat.lt_of_succ_lt_succ hj
        have he : next + 4 * (j2 + 1) + 3 = next + 4 + 4 * j2 + 3 := by omega
        have he2 : i + 1 + j2 = i + (j2 + 1) := by omega
        rw [he]
        rw [hvals j2 hj2, he2]

/-- `createWorkgroupBody` is the unpacking loop followed by the call (with
the last collected argument replaced by the context parameter) and
`ret void`. -/
theorem createWorkgroupBody_eq (L : List LTy) (c : String) :
    createWorkgroupBody L c
    = (wgLoop L 0 2).1
      ++ [WInstr.callI c (setLast (wgLoop L 0 2).2 1), WInstr.retVoid] := by
  rfl

/-- C1 counterexample: a kernel with exactly one declared parameter.  The
synthesized workgroup body `GEP`s the argument array at index 1 — equal to
the declared parameter count — and with an argument array holding exactly
the declared number of entries (memory defines only `args[0]` and its
pointee) execution faults on the out-of-range dereference: the body does
read and dereference an entry beyond the declared parameter count,
because the loop runs over the launcher's parameters, context pointer
included. -/
theorem workgroup_forwarding_c1_counterexample :
    (WInstr.gep 6 0 1
      ∈ createWorkgroupBody [LTy.i 32, LTy.ptrT poclContextType] (launcherName "dot"))
    ∧ 1 ∈ argGepIndices
        (createWorkgroupBody [LTy.i 32, LTy.ptrT poclContextType] (launcherName "dot"))
    ∧ evalWG (createWorkgroupBody [LTy.i 32, LTy.ptrT poclContextType] (launcherName "dot"))
        (wgInitRegs 100 (Val.addr 500))
        (fun a => if a = 100 then some (Val.addr 200)
          else if a = 200 then some (Val.word 7) else none)
      = none := by
  exact ⟨by decide, by decide, by decide⟩

/-- C1 (amended): for a kernel with declared parameter types `ts`
(`n = ts.length`), the synthesized workgroup body reads entry `i` of the
opaque `args` array for *every* launcher parameter index `i ≤ n` — i.e.
each declared parameter and one extra entry at index `n`, the launcher's
context-pointer slot — reinterprets each loaded entry as a pointer and
dereferences it once; the values loaded from entries `0..n-1` are
forwarded positionally (bit patterns preserved) to the launcher, the value
loaded from entry `n` is discarded, and the workgroup function's own
context parameter is forwarded unchanged as the launcher's final
argument. -/
theorem workgroup_forwarding_c1 (ts : List LTy) (lname : String) (base : Nat)
    (ctxv : Val) (p : Nat → Nat) (v : Nat → Val) (mem : Nat → Option Val)
    (hmem : ∀ j, j < ts.length + 1 → mem (base + j) = some (Val.addr (p j))
        ∧ mem (p j) = some (v j)) :
    evalWG (createWorkgroupBody (ts ++ [LTy.ptrT poclContextType]) lname)
      (wgInitRegs base ctxv) mem
    = some (lname, ((List.range ts.length).map v) ++ [ctxv]) := by
  have hlen : (ts ++ [LTy.ptrT poclContextType]).length = ts.length + 1 := by simp
  have hb : wgInitRegs base ctxv 0 = some (Val.addr base) := by simp [wgInitRegs]
  have hmem' : ∀ j, j < (ts ++ [LTy.ptrT poclContextType]).length →
      mem (base + (0 + j)) = some (Val.addr (p (0 + j)))
      ∧ mem (p (0 + j)) = some (v (0 + j)) := by
    intro j hj
    rw [hlen] at hj
    simpa using hmem j hj
  obtain ⟨regs', heval, hframe, hvals⟩ :=
    wgLoop_exec mem base p v (ts ++ [LTy.ptrT poclContextType]) 0 2 (wgInitRegs base ctxv)
      [WInstr.callI lname (setLast (wgLoop (ts ++ [LTy.ptrT poclContextType]) 0 2).2 1),
        WInstr.retVoid]
      (by omega) hb hmem'
  rw [createWorkgroupBody_eq, heval]
  have hids := wgLoop_ids (ts ++ [LTy.ptrT poclContextType]) 0 2
  rw [hlen] at hids
  rw [hids]
  have hne : ((List.range (ts.length + 1)).map fun j => 2 + 4 * j + 3) ≠ [] := by
    simp [List.range_succ]
  rw [setLast_eq 1 _ hne]
  have hdrop : (((List.range (ts.length + 1)).map fun j => 2 + 4 * j + 3).dropLast)
      = (List.range ts.length).map fun j => 2 + 4 * j + 3 := by
    rw [List.range_succ, List.map_append]
    simp
  rw [hdrop]
  have hpt : ∀ j, j < ts.length → regs' (2 + 4 * j + 3) = some (v j) := by
    intro j hj
    have h2 := hvals j (by rw [hlen]; omega)
    simpa using h2
  have h1 : regValues ((List.range ts.length).map fun j => 2 + 4 * j + 3) regs'
      = some ((List.range ts.length).map v) :=
    regValues_map_range _ regs' v ts.length hpt
  have hctx : regValues [1] regs' = some [ctxv] := by
    have h2 : regs' 1 = some ctxv := by
      rw [hframe 1 (by omega)]
      simp [wgInitRegs]
    simp [regValues, h2]
  have h3 := regValues_append _ _ regs' _ _ h1 hctx
  simp [evalWG, h3]

/-- C1 witness: one `i32` parameter, argument array at address 100 with
two live entries (the parameter's pointer and the extra context-slot
entry): execution forwards the loaded value `7` and the workgroup's own
context argument. -/
theorem workgroup_forwarding_c1_witness :
    (∀ j, j < 1 + 1 →
        (fun a => if a = 100 then some (Val.addr 200)
          else if a = 101 then some (Val.addr 300)
          else if a = 200 then some (Val.word 7)
          else if a = 300 then some (Val.word 99) else none) (100 + j)
          = some (Val.addr ((fun j => if j = 0 then 200 else 300) j))
        ∧ (fun a => if a = 100 then some (Val.addr 200)
            else if a = 101 then some (Val.addr 300)
            else if a = 200 then some (Val.word 7)
            else if a = 300 then some (Val.word 99) else none)
            ((fun j => if j = 0 then 200 else 300) j)
          = some ((fun j => if j = 0 then Val.word 7 else Val.word 99) j))
    ∧ evalWG (createWorkgroupBody [LTy.i 32, LTy.ptrT poclContextType] (launcherName "dot"))
        (wgInitRegs 100 (Val.addr 500))
        (fun a => if a = 100 then some (Val.addr 200)
          else if a = 101 then some (Val.addr 300)
          else if a = 200 then some (Val.word 7)
          else if a = 300 then some (Val.word 99) else none)
      = some (launcherName "dot", [Val.word 7, Val.addr 500]) := by
  constructor
  · decide
  · have h := workgroup_forwarding_c1 [LTy.i 32] (launcherName "dot") 100 (Val.addr 500)
      (fun j => if j = 0 then 200 else 300)
      (fun j => if j = 0 then Val.word 7 else Val.word 99)
      (fun a => if a = 100 then some (Val.addr 200)
        else if a = 101 then some (Val.addr 300)
        else if a = 200 then some (Val.word 7)
        else if a = 300 then some (Val.word 99) else none)
      (by decide)
    simpa using h

/-! ## Work-item replication equivalence -/

/-- Unfolding one instruction of a kernel-body run. -/
theorem runK_cons (lid : Nat) (x : KInstr) (xs : List KInstr) (st : KState) :
    runK lid (x :: xs) st = runK lid xs (stepK lid st x) := rfl

/-- A `foldl max` only grows from its seed. -/
theorem le_foldl_max (f : KInstr → Nat) :
    ∀ (l : List KInstr) (a : Nat), a ≤ l.foldl (fun m x => max m (f x)) a := by
  intro l
  induction l with
  | nil => intro a; exact le_refl a
  | cons x xs ih =>
    intro a
    exact le_trans (le_max_left a (f x)) (ih (max a (f x)))

/-- A `foldl max` dominates every member's value. -/
theorem mem_le_foldl_max (f : KInstr → Nat) :
    ∀ (l : List KInstr) (a : Nat) (ins : KInstr), ins ∈ l →
    f ins ≤ l.foldl (fun m x => max m (f x)) a := by
  intro l
  induction l with
  | nil => intro a ins h; simp at h
  | cons x xs ih =>
    intro a ins h
    rcases List.mem_cons.mp h with he | hm
    · subst he
      exact le_trans (le_max_right a (f ins)) (le_foldl_max f xs (max a (f ins)))
    · exact ih (max a (f x)) ins hm

/-- Every register a body mentions lies below the body's register
bound. -/
theorem instrBound_le_regBound (body : List KInstr) :
    ∀ ins ∈ body, instrBound ins ≤ regBound body :=
  fun ins h => mem_le_foldl_max instrBound body 0 ins h

/-- Simulation of one clone: running the clone of work item `i` (register
block at `off`) against register file `R` whose block agrees with `R0`
mirrors running the original body as work item `i` from `R0` — the shared
buffer evolves identically, the clone's block tracks the original's
registers, and every register outside `[off, off + B)` is untouched. -/
theorem clone_sim (off i B : Nat) :
    ∀ body : List KInstr, (∀ ins ∈ body, instrBound ins ≤ B) →
    ∀ (R R0 b : Nat → Nat), (∀ r, R (r + off) = R0 r) →
    (runK 0 (body.map (shiftInstr off i)) ⟨R, b⟩).buf = (runK i body ⟨R0, b⟩).buf
    ∧ (∀ r, (runK 0 (body.map (shiftInstr off i)) ⟨R, b⟩).regs (r + off)
        = (runK i body ⟨R0, b⟩).regs r)
    ∧ ∀ m, m < off ∨ off + B ≤ m →
        (runK 0 (body.map (shiftInstr off i)) ⟨R, b⟩).regs m = R m := by
  intro body
  induction body with
  | nil =>
    intro _ R R0 b hrel
    exact ⟨rfl, hrel, fun m _ => rfl⟩
  | cons ins rest ih =>
    intro hbound R R0 b hrel
    have hins : instrBound ins ≤ B := hbound ins (List.mem_cons_self ins rest)
    have hrest : ∀ ins2 ∈ rest, instrBound ins2 ≤ B :=
      fun ins2 h2 => hbound ins2 (List.mem_cons_of_mem ins h2)
    cases ins with
    | getLid d =>
      have hd : d + 1 ≤ B := by simpa [instrBound] using hins
      have hrel' : ∀ r, upd R (d + off) i (r + off) = upd R0 d i r := by
        intro r
        by_cases hr : r = d
        · subst hr; simp [upd]
        · have hne : r + off ≠ d + off := by omega
          simp [upd, hr, hne, hrel r]
      have h3 := ih hrest (upd R (d + off) i) (upd R0 d i) b hrel'
      simp only [List.map_cons, shiftInstr, runK_cons, stepK]
      refine ⟨h3.1, h3.2.1, ?_⟩
      intro m hm
      rw [h3.2.2 m hm]
      have hne : m ≠ d + off := by omega
      simp [upd, hne]
    | litConst d v =>
      have hd : d + 1 ≤ B := by simpa [instrBound] using hins
      have hrel' : ∀ r, upd R (d + off) v (r + off) = upd R0 d v r := by
        intro r
        by_cases hr : r = d
        · subst hr; simp [upd]
        · have hne : r + off ≠ d + off := by omega
          simp [upd, hr, hne, hrel r]
      have h3 := ih hrest (upd R (d + off) v) (upd R0 d v) b hrel'
      simp only [List.map_cons, shiftInstr, runK_cons, stepK]
      refine ⟨h3.1, h3.2.1, ?_⟩
      intro m hm
      rw [h3.2.2 m hm]
      have hne : m ≠ d + off := by omega
      simp [upd, hne]
    | addR d a a2 =>
      have hd : d + 1 ≤ B := by
        have h4 := hins
        simp [instrBound] at h4
        omega
      have hva : R (a + off) = R0 a := hrel a
      have hvb : R (a2 + off) = R0 a2 := hrel a2
      have hrel' : ∀ r,
          upd R (d + off) (R (a + off) + R (a2 + off)) (r + off)
          = upd R0 d (R (a + off) + R (a2 + off)) r := by
        intro r
        by_cases hr : r = d
        · subst hr; simp [upd]
        · have hne : r + off ≠ d + off := by omega
          simp [upd, hr, hne, hrel r]
      have h3 := ih hrest (upd R (d + off) (R (a + off) + R (a2 + off)))
        (upd R0 d (R (a + off) + R (a2 + off))) b hrel'
      simp only [List.map_cons, shiftInstr, runK_cons, stepK]
      rw [← hva, ← hvb]
      refine ⟨h3.1, h3.2.1, ?_⟩
      intro m hm
      rw [h3.2.2 m hm]
      have hne : m ≠ d + off := by omega
      simp [upd, hne]
    | loadBuf d a =>
      have hd : d + 1 ≤ B := by
        have h4 := hins
        simp [instrBound] at h4
        omega
      have hva : R (a + off) = R0 a := hrel a
      have hrel' : ∀ r,
          upd R (d + off) (b (R (a + off))) (r + off)
          = upd R0 d (b (R (a + off))) r := by
        intro r
        by_cases hr : r = d
        · subst hr; simp [upd]
        · have hne : r + off ≠ d + off := by omega
          simp [upd, hr, hne, hrel r]
      have h3 := ih hrest (upd R (d + off) (b (R (a + off))))
        (upd R0 d (b (R (a + off)))) b hrel'
      simp only [List.map_cons, shiftInstr, runK_cons, stepK]
      rw [← hva]
      refine ⟨h3.1, h3.2.1, ?_⟩
      intro m hm
      rw [h3.2.2 m hm]
      have hne : m ≠ d + off := by omega
      simp [upd, hne]
    | storeBuf a v =>
      have hbb : upd b (R (a + off)) (R (v + off)) = upd b (R0 a) (R0 v) := by
        rw [hrel a, hrel v]
      have h3 := ih hrest R R0 (upd b (R0 a) (R0 v)) hrel
      simp only [List.map_cons, shiftInstr, runK_cons, stepK, hbb]
      exact h3

/-- The replicated function, run once from zeroed registers, drives the
shared buffer exactly as the sequential per-work-item runs do, and leaves
every register at or above `n` blocks zeroed. -/
theorem repl_aux (body : List KInstr) :
    ∀ (n : Nat) (b : Nat → Nat),
    (runK 0 (replicateWI n body) ⟨fun _ => 0, b⟩).buf = runSequential n body b
    ∧ ∀ m, n * regBound body ≤ m →
        (runK 0 (replicateWI n body) ⟨fun _ => 0, b⟩).regs m = 0 := by
  intro n
  induction n with
  | zero =>
    intro b
    exact ⟨rfl, fun m _ => rfl⟩
  | succ n ih =>
    intro b
    have hsplit : replicateWI (n + 1) body
        = replicateWI n body ++ body.map (shiftInstr (n * regBound body) n) := by
      simp [replicateWI, List.range_succ]
    have hrunseq : runSequential (n + 1) body b
        = (runK n body ⟨fun _ => 0, runSequential n body b⟩).buf := by
      simp [runSequential, List.range_succ]
    obtain ⟨ihbuf, ihregs⟩ := ih b
    rcases hs : runK 0 (replicateWI n body) ⟨fun _ => 0, b⟩ with ⟨Rn, bn⟩
    rw [hs] at ihbuf ihregs
    simp only at ihbuf ihregs
    have hrel : ∀ r, Rn (r + n * regBound body) = (fun _ => (0 : Nat)) r := by
      intro r
      exact ihregs (r + n * regBound body) (by omega)
    have hcs := clone_sim (n * regBound body) n (regBound body) body
      (instrBound_le_regBound body) Rn (fun _ => 0) bn hrel
    have hrun : runK 0 (replicateWI (n + 1) body) ⟨fun _ => 0, b⟩
        = runK 0 (body.map (shiftInstr (n * regBound body) n)) ⟨Rn, bn⟩ := by
      rw [hsplit]
      show List.foldl (stepK 0) ⟨fun _ => 0, b⟩ (_ ++ _) = _
      rw [List.foldl_append]
      rw [show List.foldl (stepK 0) ⟨fun _ => 0, b⟩ (replicateWI n body)
        = runK 0 (replicateWI n body) ⟨fun _ => 0, b⟩ from rfl, hs]
      rfl
    constructor
    · rw [hrun, hcs.1, hrunseq, ihbuf]
    · intro m hm
      rw [Nat.succ_mul] at hm
      rw [hrun]
      have hframe := hcs.2.2 m (Or.inr (by omega))
      rw [hframe]
      exact ihregs m (by omega)

/-- C4: for a zero-barrier kernel body and local size `(n,1,1)` with
`n ≥ 1`, executing the work-item-replicated function once (from fresh
zeroed private registers) produces the same shared-buffer contents as
executing the original single-work-item body `n` times sequentially with
the local id set to `0..n-1`, for every input buffer content. -/
theorem replication_equiv_c4 (n : Nat) (_hn : 1 ≤ n) (body : List KInstr)
    (buf0 : Nat → Nat) :
    (runK 0 (replicateWI n body) ⟨fun _ => 0, buf0⟩).buf = runSequential n body buf0 :=
  (repl_aux body n buf0).1

/-- C4 witness: the body `lid := get_local_id; buf[lid] := 5` replicated
for `n = 2` — the replicated function writes both cells, matching the two
sequential work-item runs. -/
theorem replication_equiv_c4_witness :
    1 ≤ 2
    ∧ (runK 0 (replicateWI 2 [KInstr.getLid 0, KInstr.litConst 1 5, KInstr.storeBuf 0 1])
        ⟨fun _ => 0, fun _ => 0⟩).buf
      = runSequential 2 [KInstr.getLid 0, KInstr.litConst 1 5, KInstr.storeBuf 0 1]
          (fun _ => 0)
    ∧ runSequential 2 [KInstr.getLid 0, KInstr.litConst 1 5, KInstr.storeBuf 0 1]
        (fun _ => 0) 0 = 5
    ∧ runSequential 2 [KInstr.getLid 0, KInstr.litConst 1 5, KInstr.storeBuf 0 1]
        (fun _ => 0) 1 = 5 := by
  refine ⟨by decide,
    replication_equiv_c4 2 (by decide) [KInstr.getLid 0, KInstr.litConst 1 5,
      KInstr.storeBuf 0 1] (fun _ => 0), by decide, by decide⟩

end PoclWG
